import Mathlib

/-!
Verification development for the RunCost GitHub Actions cost analyzer.

The repository ships the CLI front end (`runcost.py`, providing
`mask_token`) and the test suite (`test_runcost.py`).  The engine module
(`analyze`, `recommend`, `detect_os`, `parse_dt`, the rate table and the
duration computation) is imported by both but its file is not part of the
sources available here, so those operations are modelled from the design
document, and checked for consistency with the behaviour the test suite
pins down.  `mask_token` is embedded directly from `runcost.py`.
-/

/-- Modelled from the spec: the `ComputeEnvironment` enumeration of §3,
the OS/runner class a job executed on. -/
inductive ComputeEnvironment : Type
  | UBUNTU
  | WINDOWS
  | MACOS
  deriving DecidableEq

/-- Modelled from the spec: the rate table of §3 mapping a compute
environment to its cost per minute in USD (Ubuntu 0.008, Windows 0.016,
macOS 0.08). -/
def rate : ComputeEnvironment → ℚ
  | .UBUNTU => 8 / 1000
  | .WINDOWS => 16 / 1000
  | .MACOS => 8 / 100

/-- Substring containment on character lists: `containsSub hay needle`
holds when `needle` occurs contiguously inside `hay`. -/
def startsWithSub : List Char → List Char → Bool
  | _, [] => true
  | [], _ :: _ => false
  | a :: as, b :: bs => a = b && startsWithSub as bs

def containsSub : List Char → List Char → Bool
  | [], needle => needle.isEmpty
  | a :: rest, needle => startsWithSub (a :: rest) needle || containsSub rest needle

/-- Case-insensitive substring test used by the environment classifier:
the label is lowercased and the (already lowercase) pattern searched in
it. -/
def labelHas (l : String) (pat : String) : Bool :=
  containsSub (l.data.map Char.toLower) pat.data

/-- Modelled from the spec: the environment classifier `detect_os`
(§4.1).  Case-insensitive substring match: any label containing
"windows" gives WINDOWS; otherwise any label containing "macos" or "mac"
gives MACOS; otherwise UBUNTU, also for an empty or null label set. -/
def detect_os (labels : Option (List String)) : ComputeEnvironment :=
  let ls := labels.getD []
  if ls.any (fun l => labelHas l "windows") then .WINDOWS
  else if ls.any (fun l => labelHas l "macos" || labelHas l "mac") then .MACOS
  else .UBUNTU

/-- An absolute time point as parsed from a provider timestamp. -/
structure DateTime where
  year : Nat
  month : Nat
  day : Nat
  hour : Nat
  minute : Nat
  second : Nat
  deriving DecidableEq

def digitVal (c : Char) : Option Nat :=
  if '0' ≤ c ∧ c ≤ '9' then some (c.toNat - 48) else none

def parse2 : List Char → Option (Nat × List Char)
  | a :: b :: rest =>
    match digitVal a, digitVal b with
    | some x, some y => some (10 * x + y, rest)
    | _, _ => none
  | _ => none

def parse4 : List Char → Option (Nat × List Char)
  | a :: b :: c :: d :: rest =>
    match digitVal a, digitVal b, digitVal c, digitVal d with
    | some w, some x, some y, some z => some (1000 * w + 100 * x + 10 * y + z, rest)
    | _, _, _, _ => none
  | _ => none

def expectChar (c : Char) : List Char → Option (List Char)
  | x :: rest => if x = c then some rest else none
  | [] => none

/-- Parser for the extended ISO-8601 form `YYYY-MM-DDTHH:MM:SSZ` with the
trailing zero-offset marker, validating the field ranges. -/
def parseDtChars (cs : List Char) : Option DateTime := do
  let (y, cs) ← parse4 cs
  let cs ← expectChar '-' cs
  let (mo, cs) ← parse2 cs
  let cs ← expectChar '-' cs
  let (d, cs) ← parse2 cs
  let cs ← expectChar 'T' cs
  let (h, cs) ← parse2 cs
  let cs ← expectChar ':' cs
  let (mi, cs) ← parse2 cs
  let cs ← expectChar ':' cs
  let (s, cs) ← parse2 cs
  let cs ← expectChar 'Z' cs
  if cs = [] ∧ 1 ≤ mo ∧ mo ≤ 12 ∧ 1 ≤ d ∧ d ≤ 31 ∧ h < 24 ∧ mi < 60 ∧ s < 60 then
    some ⟨y, mo, d, h, mi, s⟩
  else
    none

/-- Modelled from the spec: the duration parser `parse_dt` (§4.2).  A
null/absent input yields a null result with no error; a malformed
timestamp string fails with a `ParseError`; a well-formed extended
ISO-8601 timestamp with a trailing zero-offset marker parses to the
corresponding absolute time point. -/
def parse_dt : Option String → Except String (Option DateTime)
  | none => .ok none
  | some s =>
    match parseDtChars s.data with
    | some dt => .ok (some dt)
    | none => .error "ParseError"

def pad2 (n : Nat) : List Char :=
  [Char.ofNat (48 + n / 10 % 10), Char.ofNat (48 + n % 10)]

def pad4 (n : Nat) : List Char :=
  [Char.ofNat (48 + n / 1000 % 10), Char.ofNat (48 + n / 100 % 10),
   Char.ofNat (48 + n / 10 % 10), Char.ofNat (48 + n % 10)]

/-- Rendering of a time point in the extended ISO-8601 form with the
trailing zero-offset marker (the provider's timestamp format). -/
def formatDt (dt : DateTime) : String :=
  String.mk (pad4 dt.year ++ ('-' :: (pad2 dt.month ++ ('-' :: (pad2 dt.day ++
    ('T' :: (pad2 dt.hour ++ (':' :: (pad2 dt.minute ++
      (':' :: (pad2 dt.second ++ ['Z'])))))))))))

/-- Field ranges of a well-formed timestamp. -/
def validDt (dt : DateTime) : Bool :=
  dt.year < 10000 ∧ 1 ≤ dt.month ∧ dt.month ≤ 12 ∧ 1 ≤ dt.day ∧ dt.day ≤ 31 ∧
    dt.hour < 24 ∧ dt.minute < 60 ∧ dt.second < 60

def isLeap (y : Nat) : Bool :=
  (y % 4 = 0 ∧ y % 100 ≠ 0) ∨ y % 400 = 0

def monthDays (y m : Nat) : Nat :=
  if m = 2 then (if isLeap y then 29 else 28)
  else if m = 4 ∨ m = 6 ∨ m = 9 ∨ m = 11 then 30
  else 31

def daysBeforeMonth (y : Nat) : Nat → Nat
  | 0 => 0
  | 1 => 0
  | m + 2 => daysBeforeMonth y (m + 1) + monthDays y (m + 1)

/-- Leap years in the proleptic Gregorian range `[0, y)`. -/
def leapsBefore (y : Nat) : Nat :=
  (y + 3) / 4 - (y + 99) / 100 + (y + 399) / 400

def daysBeforeYear (y : Nat) : Nat :=
  365 * y + leapsBefore y

/-- Days elapsed from 0000-01-01 to the time point's calendar date. -/
def toDays (dt : DateTime) : Nat :=
  daysBeforeYear dt.year + daysBeforeMonth dt.year dt.month + (dt.day - 1)

/-- Seconds elapsed from the epoch 0000-01-01T00:00:00Z to the time
point: the absolute position used for elapsed-time arithmetic. -/
def toSec (dt : DateTime) : Nat :=
  toDays dt * 86400 + dt.hour * 3600 + dt.minute * 60 + dt.second

/-- Modelled from the spec: elapsed minutes between two absolute time
points (§4.2, §3 JobRecord).  Duration is end minus start, floored at
zero; if either endpoint is absent the elapsed minutes is zero. -/
def duration_min : Option DateTime → Option DateTime → ℚ
  | some s, some e => ((max ((toSec e : Int) - (toSec s : Int)) 0 : Int) : ℚ) / 60
  | _, _ => 0

/-- Modelled from the spec: one provider run record (§3 RunRecord):
identifier and workflow name. -/
structure RunRec where
  id : Nat
  name : String
  deriving DecidableEq

/-- Modelled from the spec: one job within a run (§3 JobRecord): name,
nullable start and end timestamps, declared label set. -/
structure JobRec where
  name : String
  started_at : Option String
  completed_at : Option String
  labels : Option (List String)
  deriving DecidableEq

/-- Modelled from the spec: per-run billable timing (§3 BillableTiming):
per-environment total billable milliseconds from the billing endpoint. -/
structure BillableTiming where
  billable : List (ComputeEnvironment × Nat)
  deriving DecidableEq

/-- Modelled from the spec: the external Client collaborator (§6).  The
run list depends on repository and limit; the per-run timing and job
fetches each either succeed or report an error. -/
structure Client where
  runs : String → Nat → List RunRec
  timing : Nat → Except String BillableTiming
  jobs : Nat → Except String (List JobRec)

def exceptFailed : Except String α → Bool
  | .error _ => true
  | .ok _ => false

/-- Modelled from the spec: per-job aggregate (§3 JobAggregate):
execution count, accumulated minutes, accumulated cost. -/
structure JobAgg where
  count : Nat
  minutes : ℚ
  cost : ℚ
  deriving DecidableEq

/-- Modelled from the spec: per-workflow aggregate (§3
WorkflowAggregate): run count, accumulated minutes and cost, and the job
name → JobAggregate mapping. -/
structure WorkflowAgg where
  runs : Nat
  minutes : ℚ
  cost : ℚ
  jobs : List (String × JobAgg)
  deriving DecidableEq

/-- Modelled from the spec: a recommendation (§3, §4.4) with its kind,
workflow name, optional job name, remediation string, and kind-specific
numeric evidence. -/
inductive Recommendation : Type
  | expensive_workflow (workflow : String) (avg_cost_usd : ℚ) (fix : String)
  | long_job (workflow : String) (job : String) (avg_min : ℚ) (fix : String)
  | high_frequency (workflow : String) (runs : Nat) (fix : String)
  deriving DecidableEq

/-- Configured per-run cost threshold in USD (§4.4). -/
def COST_PER_RUN_THRESHOLD : ℚ := 1

/-- Configured per-job average duration threshold in minutes (§4.4). -/
def LONG_JOB_THRESHOLD : ℚ := 15

/-- Configured absolute run-count threshold (§4.4). -/
def HIGH_FREQ_THRESHOLD : Nat := 30

def expFix : String := "Review triggers and split or cache this workflow"

def longFix : String := "Cache dependencies or parallelize this job"

def freqFix : String := "Batch commits or add path filters to reduce runs"

def expRec (name : String) (wf : WorkflowAgg) : List Recommendation :=
  if COST_PER_RUN_THRESHOLD < wf.cost / (wf.runs : ℚ) then
    [.expensive_workflow name (wf.cost / (wf.runs : ℚ)) expFix]
  else []

def jobRecs (name : String) : List (String × JobAgg) → List Recommendation
  | [] => []
  | (jn, j) :: rest =>
    (if LONG_JOB_THRESHOLD < j.minutes / (j.count : ℚ) then
      [.long_job name jn (j.minutes / (j.count : ℚ)) longFix]
    else []) ++ jobRecs name rest

def freqRec (name : String) (wf : WorkflowAgg) : List Recommendation :=
  if HIGH_FREQ_THRESHOLD < wf.runs then
    [.high_frequency name wf.runs freqFix]
  else []

def recsFor (name : String) (wf : WorkflowAgg) : List Recommendation :=
  expRec name wf ++ jobRecs name wf.jobs ++ freqRec name wf

/-- Modelled from the spec: the recommender `recommend` (§4.4).  Each
rule is evaluated independently per workflow (and per job for
`long_job`); recommendations are emitted in iteration order and the
result is empty, never null, when no rule triggers. -/
def recommend : List (String × WorkflowAgg) → Nat → List Recommendation
  | [], _ => []
  | (name, wf) :: rest, n => recsFor name wf ++ recommend rest n

def lookupAssoc (k : String) : List (String × α) → Option α
  | [] => none
  | (k', v) :: rest => if k' = k then some v else lookupAssoc k rest

def updateAssoc (k : String) (f : Option α → α) : List (String × α) → List (String × α)
  | [] => [(k, f none)]
  | (k', v) :: rest =>
    if k' = k then (k', f (some v)) :: rest else (k', v) :: updateAssoc k f rest

/-- Minutes and cost contributed by one run's billable timing: each
environment bucket's milliseconds are converted to minutes and priced at
the rate table; a failed fetch contributes nothing (§4.3). -/
def timingContribution : Except String BillableTiming → ℚ × ℚ
  | .error _ => (0, 0)
  | .ok t =>
    t.billable.foldl
      (fun acc p => (acc.1 + (p.2 : ℚ) / 60000, acc.2 + (p.2 : ℚ) / 60000 * rate p.1))
      (0, 0)

def parsedOrNone : Except String (Option DateTime) → Option DateTime
  | .ok x => x
  | .error _ => none

/-- Fold one job record into the job aggregate mapping: classify its
environment, derive its duration from its timestamps, price it, and
accumulate (§4.3). -/
def foldJob (jobs : List (String × JobAgg)) (j : JobRec) : List (String × JobAgg) :=
  let env := detect_os j.labels
  let dur := duration_min (parsedOrNone (parse_dt j.started_at))
    (parsedOrNone (parse_dt j.completed_at))
  updateAssoc j.name
    (fun old =>
      match old with
      | none => ⟨1, dur, dur * rate env⟩
      | some a => ⟨a.count + 1, a.minutes + dur, a.cost + dur * rate env⟩)
    jobs

/-- Job aggregation for one run: a failed job fetch leaves the mapping
unchanged (§4.3). -/
def jobsContribution : Except String (List JobRec) → List (String × JobAgg) →
    List (String × JobAgg)
  | .error _, js => js
  | .ok list, js => list.foldl foldJob js

/-- Fold one run into the workflow aggregate mapping: the run count is
incremented unconditionally, then the timing and job fetches each
contribute on success and are skipped on failure (§4.3). -/
def processRun (client : Client) (wfs : List (String × WorkflowAgg)) (r : RunRec) :
    List (String × WorkflowAgg) :=
  let tc := timingContribution (client.timing r.id)
  updateAssoc r.name
    (fun old =>
      let wf := old.getD ⟨0, 0, 0, []⟩
      ⟨wf.runs + 1, wf.minutes + tc.1, wf.cost + tc.2,
        jobsContribution (client.jobs r.id) wf.jobs⟩)
    wfs

/-- Modelled from the spec: the terminal output of one analysis (§3
AnalysisResult). -/
structure AnalysisResult where
  total_runs : Nat
  total_cost : ℚ
  workflows : List (String × WorkflowAgg)
  recommendations : List Recommendation

/-- Modelled from the spec: the run aggregator `analyze` (§4.3).  The
run list is requested from the Client, each run is folded into the
aggregate, `total_runs` is the count of run records received,
`total_cost` the sum of workflow costs, and the recommender scans the
finished aggregate. -/
def analyze (client : Client) (repo : String) (limit : Nat) : AnalysisResult :=
  let runList := client.runs repo limit
  let wfs := runList.foldl (processRun client) []
  { total_runs := runList.length
    total_cost := wfs.foldl (fun acc p => acc + p.2.cost) 0
    workflows := wfs
    recommendations := recommend wfs runList.length }

/-- Embedded from `src/runcost.py` lines 11-15: mask a token for safe
display.  A token longer than 8 characters keeps its first 4 and last 4
characters with the middle replaced by asterisks; otherwise the constant
"****" is returned. -/
def mask_token (token : String) : String :=
  if token.length > 8 then
    String.mk (token.data.take 4 ++ List.replicate (token.length - 8) '*' ++
      token.data.drop (token.length - 4))
  else "****"

lemma digitVal_ofNat (k : Nat) (hk : k < 10) : digitVal (Char.ofNat (48 + k)) = some k := by
  interval_cases k <;> decide

lemma parse2_pad2 (n : Nat) (h : n < 100) (rest : List Char) :
    parse2 (pad2 n ++ rest) = some (n, rest) := by
  have h1 := digitVal_ofNat (n / 10 % 10) (Nat.mod_lt _ (by omega))
  have h2 := digitVal_ofNat (n % 10) (Nat.mod_lt _ (by omega))
  simp only [pad2, List.cons_append, List.nil_append, parse2, h1, h2]
  have : n / 10 % 10 = n / 10 := Nat.mod_eq_of_lt (by omega)
  rw [this]
  congr 1
  ext <;> simp <;> omega

lemma parse4_pad4 (n : Nat) (h : n < 10000) (rest : List Char) :
    parse4 (pad4 n ++ rest) = some (n, rest) := by
  have h1 := digitVal_ofNat (n / 1000 % 10) (Nat.mod_lt _ (by omega))
  have h2 := digitVal_ofNat (n / 100 % 10) (Nat.mod_lt _ (by omega))
  have h3 := digitVal_ofNat (n / 10 % 10) (Nat.mod_lt _ (by omega))
  have h4 := digitVal_ofNat (n % 10) (Nat.mod_lt _ (by omega))
  simp only [pad4, List.cons_append, List.nil_append, parse4, h1, h2, h3, h4]
  congr 1
  ext <;> simp <;> omega

lemma expectChar_cons (c : Char) (rest : List Char) : expectChar c (c :: rest) = some rest := by
  simp [expectChar]

/-- C3: the environment classifier is total over all label inputs and
returns exactly one ComputeEnvironment: any label containing "windows"
(case-insensitively) gives WINDOWS; otherwise any label containing
"macos" or "mac" gives MACOS; otherwise UBUNTU, including for an empty
or null label set. -/
theorem detect_os_spec (labels : Option (List String)) :
    ((∃ l ∈ labels.getD [], labelHas l "windows" = true) → detect_os labels = .WINDOWS) ∧
    ((∀ l ∈ labels.getD [], ¬labelHas l "windows" = true) →
      (∃ l ∈ labels.getD [], (labelHas l "macos" || labelHas l "mac") = true) →
      detect_os labels = .MACOS) ∧
    ((∀ l ∈ labels.getD [], ¬labelHas l "windows" = true) →
      (∀ l ∈ labels.getD [], ¬(labelHas l "macos" || labelHas l "mac") = true) →
      detect_os labels = .UBUNTU) ∧
    detect_os none = .UBUNTU ∧ detect_os (some []) = .UBUNTU := by
  refine ⟨?_, ?_, ?_, rfl, rfl⟩
  · intro h
    simp only [detect_os]
    rw [if_pos (List.any_eq_true.mpr h)]
  · intro hw hm
    simp only [detect_os]
    rw [if_neg, if_pos (List.any_eq_true.mpr hm)]
    simp only [List.any_eq_true, not_exists]
    intro l
    by_cases hl : l ∈ labels.getD [] <;> simp [hl, hw l]
  · intro hw hm
    simp only [detect_os]
    rw [if_neg, if_neg]
    · simp only [List.any_eq_true, not_exists]
      intro l
      by_cases hl : l ∈ labels.getD []
      · simpa [hl] using hm l hl
      · simp [hl]
    · simp only [List.any_eq_true, not_exists]
      intro l
      by_cases hl : l ∈ labels.getD [] <;> simp [hl, hw l]

/-- C3 witness: concrete classifications, including a mixed-case
Windows label and the null and empty label sets. -/
theorem detect_os_spec_witness :
    detect_os (some ["Windows-2022"]) = .WINDOWS ∧
    detect_os (some ["macos-13"]) = .MACOS ∧
    detect_os (some ["ubuntu-latest"]) = .UBUNTU ∧
    detect_os none = .UBUNTU ∧ detect_os (some []) = .UBUNTU :=
  ⟨(detect_os_spec (some ["Windows-2022"])).1 ⟨"Windows-2022", by decide, by decide⟩,
   (detect_os_spec (some ["macos-13"])).2.1 (by decide) ⟨"macos-13", by decide, by decide⟩,
   (detect_os_spec (some ["ubuntu-latest"])).2.2.1 (by decide) (by decide),
   (detect_os_spec none).2.2.2.1,
   (detect_os_spec (some [])).2.2.2.2⟩

/-- C4: `parse_dt` maps a null/absent input to a null result without
error, and parses every well-formed extended ISO-8601 timestamp with the
trailing zero-offset marker to the corresponding absolute time point. -/
theorem parse_dt_spec :
    parse_dt none = .ok none ∧
    ∀ dt : DateTime, validDt dt = true → parse_dt (some (formatDt dt)) = .ok (some dt) := by
  refine ⟨rfl, ?_⟩
  intro dt hv
  simp only [validDt, decide_eq_true_eq] at hv
  obtain ⟨h1, h2, h3, h4, h5, h6, h7, h8⟩ := hv
  simp only [parse_dt, formatDt, parseDtChars,
    parse4_pad4 dt.year (by omega), parse2_pad2 dt.month (by omega),
    parse2_pad2 dt.day (by omega), parse2_pad2 dt.hour (by omega),
    parse2_pad2 dt.minute (by omega), parse2_pad2 dt.second (by omega),
    expectChar_cons, Option.bind_eq_bind, Option.some_bind]
  rw [if_pos ⟨trivial, h2, h3, h4, h5, h6, h7, h8⟩]

/-- C4 witness: the test suite's timestamp parses to its time point, and
the null input yields the null result. -/
theorem parse_dt_spec_witness :
    parse_dt none = .ok none ∧
    validDt ⟨2024, 6, 15, 10, 30, 0⟩ = true ∧
    parse_dt (some "2024-06-15T10:30:00Z") = .ok (some ⟨2024, 6, 15, 10, 30, 0⟩) :=
  ⟨parse_dt_spec.1, by decide,
    by
      have := parse_dt_spec.2 ⟨2024, 6, 15, 10, 30, 0⟩ (by decide)
      simpa using this⟩

/-- C5: elapsed minutes between two time points is never negative, is
exactly zero whenever the end precedes the start, and is zero when
either endpoint is absent. -/
theorem duration_min_spec :
    (∀ s e : Option DateTime, 0 ≤ duration_min s e) ∧
    (∀ a b : DateTime, toSec b < toSec a → duration_min (some a) (some b) = 0) ∧
    (∀ x : Option DateTime, duration_min none x = 0 ∧ duration_min x none = 0) := by
  refine ⟨?_, ?_, ?_⟩
  · intro s e
    match s, e with
    | some a, some b =>
      simp only [duration_min]
      apply div_nonneg _ (by norm_num)
      exact_mod_cast le_max_right _ 0
    | none, some _ => exact le_refl 0
    | none, none => exact le_refl 0
    | some _, none => exact le_refl 0
  · intro a b h
    simp only [duration_min]
    rw [max_eq_right (by omega : (toSec b : Int) - (toSec a : Int) ≤ 0)]
    norm_num
  · intro x
    refine ⟨?_, ?_⟩ <;> cases x <;> rfl

/-- C5 witness: a one-minute reversed interval yields zero, an absent
endpoint yields zero, and a forward interval is non-negative. -/
theorem duration_min_spec_witness :
    duration_min (some ⟨2024, 1, 1, 0, 10, 0⟩) (some ⟨2024, 1, 1, 0, 9, 0⟩) = 0 ∧
    duration_min none (some ⟨2024, 1, 1, 0, 9, 0⟩) = 0 ∧
    0 ≤ duration_min (some ⟨2024, 1, 1, 0, 0, 0⟩) (some ⟨2024, 1, 1, 0, 8, 0⟩) :=
  ⟨duration_min_spec.2.1 _ _ (by decide),
   (duration_min_spec.2.2 (some ⟨2024, 1, 1, 0, 9, 0⟩)).1,
   duration_min_spec.1 _ _⟩

lemma jobRecs_eq_nil (name : String) (jobs : List (String × JobAgg))
    (h : ∀ q ∈ jobs, ¬LONG_JOB_THRESHOLD < q.2.minutes / (q.2.count : ℚ)) :
    jobRecs name jobs = [] := by
  induction jobs with
  | nil => rfl
  | cons q rest ih =>
    obtain ⟨jn, j⟩ := q
    simp only [jobRecs]
    rw [if_neg (h (jn, j) (List.mem_cons_self _ _)),
      ih (fun q hq => h q (List.mem_cons_of_mem _ hq))]
    rfl

/-- C6: `recommend` never raises and returns the empty sequence for the
empty workflow mapping, and more generally returns the empty (never
null) sequence whenever no rule triggers for any workflow or job. -/
theorem recommend_no_trigger :
    (∀ n, recommend [] n = []) ∧
    ∀ wfs n,
      (∀ p ∈ wfs,
        ¬COST_PER_RUN_THRESHOLD < p.2.cost / (p.2.runs : ℚ) ∧
        p.2.runs ≤ HIGH_FREQ_THRESHOLD ∧
        ∀ q ∈ p.2.jobs, ¬LONG_JOB_THRESHOLD < q.2.minutes / (q.2.count : ℚ)) →
      recommend wfs n = [] := by
  refine ⟨fun n => rfl, ?_⟩
  intro wfs n h
  induction wfs with
  | nil => rfl
  | cons p rest ih =>
    obtain ⟨name, wf⟩ := p
    have hp := h (name, wf) (List.mem_cons_self _ _)
    simp only [recommend, recsFor, expRec, freqRec]
    rw [if_neg hp.1, if_neg (Nat.not_lt.mpr hp.2.1),
      jobRecs_eq_nil name wf.jobs hp.2.2,
      ih (fun q hq => h q (List.mem_cons_of_mem _ hq))]
    rfl

/-- C6 witness: the test suite's healthy CI aggregate, for which no rule
triggers, yields the empty sequence, as does the empty mapping. -/
theorem recommend_no_trigger_witness :
    recommend [] 0 = [] ∧
    recommend [("ci", ⟨10, 20, 1, []⟩)] 10 = [] :=
  ⟨recommend_no_trigger.1 0,
   recommend_no_trigger.2 [("ci", ⟨10, 20, 1, []⟩)] 10 (by
     intro p hp
     rcases List.mem_singleton.mp hp with rfl
     refine ⟨by norm_num [COST_PER_RUN_THRESHOLD], by norm_num [HIGH_FREQ_THRESHOLD], by simp⟩)⟩

lemma expensive_not_in_jobRecs (name nm : String) (jobs : List (String × JobAgg))
    (c : ℚ) (fx : String) :
    Recommendation.expensive_workflow nm c fx ∉ jobRecs name jobs := by
  induction jobs with
  | nil => simp [jobRecs]
  | cons q rest ih =>
    obtain ⟨jn, j⟩ := q
    by_cases hc : LONG_JOB_THRESHOLD < j.minutes / (j.count : ℚ) <;>
      simp [jobRecs, hc, ih]

lemma expensive_not_in_freqRec (name nm : String) (wf : WorkflowAgg)
    (c : ℚ) (fx : String) :
    Recommendation.expensive_workflow nm c fx ∉ freqRec name wf := by
  by_cases hc : HIGH_FREQ_THRESHOLD < wf.runs <;> simp [freqRec, hc]

/-- C7: the `expensive_workflow` rule triggers exactly when a workflow's
average cost per run exceeds the configured per-run cost threshold,
recording that average as evidence; in particular the workflow with 4
runs costing 8.0 USD is flagged with average 2.0 and the workflow with
10 runs costing 0.5 USD is not flagged. -/
theorem expensive_workflow_spec :
    (∀ (wfs : List (String × WorkflowAgg)) (n : Nat) (nm : String) (c : ℚ) (fx : String),
      Recommendation.expensive_workflow nm c fx ∈ recommend wfs n ↔
      ∃ wf, (nm, wf) ∈ wfs ∧ COST_PER_RUN_THRESHOLD < wf.cost / (wf.runs : ℚ) ∧
        c = wf.cost / (wf.runs : ℚ) ∧ fx = expFix) ∧
    recommend [("deploy", ⟨4, 200, 8, []⟩)] 4 =
      [.expensive_workflow "deploy" 2 expFix] ∧
    recommend [("lint", ⟨10, 8, 1 / 2, []⟩)] 10 = [] := by
  refine ⟨?_, ?_, ?_⟩
  · intro wfs n nm c fx
    induction wfs with
    | nil => simp [recommend]
    | cons p rest ih =>
      obtain ⟨name, wf⟩ := p
      simp only [recommend, recsFor, List.append_assoc, List.mem_append]
      constructor
      · rintro (h | h | h | h)
        · by_cases hc : COST_PER_RUN_THRESHOLD < wf.cost / (wf.runs : ℚ)
          · simp only [expRec, if_pos hc, List.mem_singleton,
              Recommendation.expensive_workflow.injEq] at h
            obtain ⟨rfl, rfl, rfl⟩ := h
            exact ⟨wf, List.mem_cons_self _ _, hc, rfl, rfl⟩
          · simp [expRec, if_neg hc] at h
        · exact absurd h (expensive_not_in_jobRecs name nm wf.jobs c fx)
        · exact absurd h (expensive_not_in_freqRec name nm wf c fx)
        · obtain ⟨wf', hmem, hc, hv, hf⟩ := ih.mp h
          exact ⟨wf', List.mem_cons_of_mem _ hmem, hc, hv, hf⟩
      · rintro ⟨wf', hmem, hc, hv, hf⟩
        rcases List.mem_cons.mp hmem with heq | hmem'
        · obtain ⟨h1, h2⟩ := Prod.mk.injEq .. ▸ heq
          left
          subst h1 h2 hv hf
          simp [expRec, if_pos hc]
        · exact Or.inr (Or.inr (Or.inr (ih.mpr ⟨wf', hmem', hc, hv, hf⟩)))
  · norm_num [recommend, recsFor, expRec, jobRecs, freqRec,
      COST_PER_RUN_THRESHOLD, HIGH_FREQ_THRESHOLD]
  · norm_num [recommend, recsFor, expRec, jobRecs, freqRec,
      COST_PER_RUN_THRESHOLD, HIGH_FREQ_THRESHOLD]

/-- C7 witness: the flagged example obtained through the
characterization at the concrete aggregate. -/
theorem expensive_workflow_spec_witness :
    Recommendation.expensive_workflow "deploy" 2 expFix ∈
      recommend [("deploy", ⟨4, 200, 8, []⟩)] 4 :=
  (expensive_workflow_spec.1 _ 4 "deploy" 2 expFix).mpr
    ⟨⟨4, 200, 8, []⟩, List.mem_singleton.mpr rfl,
      by norm_num [COST_PER_RUN_THRESHOLD], by norm_num, rfl⟩

lemma mem_jobRecs (name : String) (jobs : List (String × JobAgg)) (jn : String)
    (j : JobAgg) (hj : (jn, j) ∈ jobs)
    (hc : LONG_JOB_THRESHOLD < j.minutes / (j.count : ℚ)) :
    Recommendation.long_job name jn (j.minutes / (j.count : ℚ)) longFix ∈
      jobRecs name jobs := by
  induction jobs with
  | nil => simp at hj
  | cons q rest ih =>
    obtain ⟨jn', j'⟩ := q
    simp only [jobRecs, List.mem_append]
    rcases List.mem_cons.mp hj with heq | hmem
    · obtain ⟨h1, h2⟩ := Prod.mk.injEq .. ▸ heq
      subst h1 h2
      rw [if_pos hc]
      exact Or.inl (List.mem_singleton.mpr rfl)
    · exact Or.inr (ih hmem)

/-- C8: the `long_job` rule triggers when a job's average duration
exceeds the configured per-job duration threshold, recording that
average as evidence; in particular a job with 3 executions totalling 60
minutes is flagged with average 20.0. -/
theorem long_job_spec :
    (∀ (wfs : List (String × WorkflowAgg)) (n : Nat) (nm jn : String)
      (wf : WorkflowAgg) (j : JobAgg), (nm, wf) ∈ wfs → (jn, j) ∈ wf.jobs →
      LONG_JOB_THRESHOLD < j.minutes / (j.count : ℚ) →
      Recommendation.long_job nm jn (j.minutes / (j.count : ℚ)) longFix ∈
        recommend wfs n) ∧
    recommend [("ci", ⟨3, 5, 3 / 10, [("build", ⟨3, 60, 12 / 25⟩)]⟩)] 3 =
      [.long_job "ci" "build" 20 longFix] := by
  constructor
  · intro wfs n nm jn wf j hw hj hc
    induction wfs with
    | nil => simp at hw
    | cons p rest ih =>
      obtain ⟨name, wf'⟩ := p
      simp only [recommend, List.mem_append]
      rcases List.mem_cons.mp hw with heq | hmem
      · obtain ⟨h1, h2⟩ := Prod.mk.injEq .. ▸ heq
        subst h1 h2
        exact Or.inl (by
          simp only [recsFor, List.append_assoc, List.mem_append]
          exact Or.inr (Or.inl (mem_jobRecs nm wf.jobs jn j hj hc)))
      · exact Or.inr (ih hmem)
  · norm_num [recommend, recsFor, expRec, jobRecs, freqRec,
      COST_PER_RUN_THRESHOLD, LONG_JOB_THRESHOLD, HIGH_FREQ_THRESHOLD]

/-- C8 witness: the flagged example derived from the rule at the test
suite's aggregate. -/
theorem long_job_spec_witness :
    Recommendation.long_job "ci" "build" 20 longFix ∈
      recommend [("ci", ⟨3, 5, 3 / 10, [("build", ⟨3, 60, 12 / 25⟩)]⟩)] 3 := by
  have h := long_job_spec.1 [("ci", ⟨3, 5, 3 / 10, [("build", ⟨3, 60, 12 / 25⟩)]⟩)] 3
    "ci" "build" ⟨3, 5, 3 / 10, [("build", ⟨3, 60, 12 / 25⟩)]⟩ ⟨3, 60, 12 / 25⟩
    (List.mem_singleton.mpr rfl) (List.mem_singleton.mpr rfl)
    (by norm_num [LONG_JOB_THRESHOLD])
  have h20 : ((60 : ℚ) / ((3 : Nat) : ℚ)) = 20 := by norm_num
  rwa [show (⟨3, 60, 12 / 25⟩ : JobAgg).minutes / ((⟨3, 60, 12 / 25⟩ : JobAgg).count : ℚ) = 20
    from by norm_num] at h

/-- C9: the `high_frequency` rule triggers when a workflow's run count
exceeds the configured absolute run-count threshold; in particular the
workflow with 50 runs out of 50 analyzed is flagged. -/
theorem high_frequency_spec :
    (∀ (wfs : List (String × WorkflowAgg)) (n : Nat) (nm : String)
      (wf : WorkflowAgg), (nm, wf) ∈ wfs → HIGH_FREQ_THRESHOLD < wf.runs →
      Recommendation.high_frequency nm wf.runs freqFix ∈ recommend wfs n) ∧
    Recommendation.high_frequency "ci" 50 freqFix ∈
      recommend [("ci", ⟨50, 30, 1, []⟩)] 50 := by
  constructor
  · intro wfs n nm wf hw hc
    induction wfs with
    | nil => simp at hw
    | cons p rest ih =>
      obtain ⟨name, wf'⟩ := p
      simp only [recommend, List.mem_append]
      rcases List.mem_cons.mp hw with heq | hmem
      · obtain ⟨h1, h2⟩ := Prod.mk.injEq .. ▸ heq
        subst h1 h2
        exact Or.inl (by
          simp only [recsFor, List.append_assoc, List.mem_append, freqRec, if_pos hc]
          exact Or.inr (Or.inr (List.mem_singleton.mpr rfl)))
      · exact Or.inr (ih hmem)
  · rw [show recommend [("ci", ⟨50, 30, 1, []⟩)] 50 =
      [.high_frequency "ci" 50 freqFix] from by
        norm_num [recommend, recsFor, expRec, jobRecs, freqRec,
          COST_PER_RUN_THRESHOLD, HIGH_FREQ_THRESHOLD]]
    exact List.mem_singleton.mpr rfl

/-- C9 witness: the flagged example derived from the rule at the test
suite's aggregate. -/
theorem high_frequency_spec_witness :
    Recommendation.high_frequency "ci" 50 freqFix ∈
      recommend [("ci", ⟨50, 30, 1, []⟩)] 50 :=
  high_frequency_spec.1 [("ci", ⟨50, 30, 1, []⟩)] 50 "ci" ⟨50, 30, 1, []⟩
    (List.mem_singleton.mpr rfl) (by norm_num [HIGH_FREQ_THRESHOLD])

/-- C1: `total_runs` is the length of the run list returned by the
Client, whatever the outcomes of the per-run timing and job fetches. -/
theorem analyze_total_runs (client : Client) (repo : String) (limit : Nat) :
    (analyze client repo limit).total_runs = (client.runs repo limit).length := rfl

/-- A workflow aggregate carrying no contribution: zero cost, zero
minutes, no jobs. -/
def ZeroWf (wf : WorkflowAgg) : Prop :=
  wf.cost = 0 ∧ wf.minutes = 0 ∧ wf.jobs = []

lemma mem_updateAssoc {α : Type} (k : String) (f : Option α → α)
    (l : List (String × α)) (x : String × α) (hx : x ∈ updateAssoc k f l) :
    x ∈ l ∨ ∃ o : Option α, (∀ v, o = some v → (k, v) ∈ l) ∧ x = (k, f o) := by
  induction l with
  | nil =>
    simp only [updateAssoc, List.mem_singleton] at hx
    exact Or.inr ⟨none, by simp, hx⟩
  | cons p rest ih =>
    obtain ⟨k', v⟩ := p
    simp only [updateAssoc] at hx
    by_cases hk : k' = k
    · rw [if_pos hk] at hx
      rcases List.mem_cons.mp hx with h | h
      · subst hk
        exact Or.inr ⟨some v, by simp, h⟩
      · exact Or.inl (List.mem_cons_of_mem _ h)
    · rw [if_neg hk] at hx
      rcases List.mem_cons.mp hx with h | h
      · exact Or.inl (h ▸ List.mem_cons_self _ _)
      · rcases ih h with h' | ⟨o, ho, hx'⟩
        · exact Or.inl (List.mem_cons_of_mem _ h')
        · exact Or.inr ⟨o, fun v hv => List.mem_cons_of_mem _ (ho v hv), hx'⟩

lemma timingContribution_failed (e : Except String BillableTiming)
    (h : exceptFailed e = true) : timingContribution e = (0, 0) := by
  cases e with
  | error _ => rfl
  | ok _ => simp [exceptFailed] at h

lemma jobsContribution_failed (e : Except String (List JobRec))
    (h : exceptFailed e = true) (js : List (String × JobAgg)) :
    jobsContribution e js = js := by
  cases e with
  | error _ => rfl
  | ok _ => simp [exceptFailed] at h

lemma processRun_zero (client : Client) (r : RunRec)
    (wfs : List (String × WorkflowAgg))
    (ht : exceptFailed (client.timing r.id) = true)
    (hj : exceptFailed (client.jobs r.id) = true)
    (hz : ∀ p ∈ wfs, ZeroWf p.2) :
    ∀ p ∈ processRun client wfs r, ZeroWf p.2 := by
  intro p hp
  have htc := timingContribution_failed _ ht
  have hjc := jobsContribution_failed _ hj
  simp only [processRun] at hp
  rcases mem_updateAssoc _ _ _ _ hp with h | ⟨o, ho, hx⟩
  · exact hz p h
  · cases o with
    | none =>
      rw [hx]
      simp [ZeroWf, htc, hjc]
    | some v =>
      obtain ⟨hc0, hm0, hj0⟩ := hz _ (ho v rfl)
      rw [hx]
      simp [ZeroWf, htc, hjc]
      exact ⟨hc0, hm0, hj0⟩

lemma foldl_processRun_zero (client : Client) (runs : List RunRec)
    (hfail : ∀ r ∈ runs,
      exceptFailed (client.timing r.id) = true ∧ exceptFailed (client.jobs r.id) = true)
    (wfs : List (String × WorkflowAgg)) (hz : ∀ p ∈ wfs, ZeroWf p.2) :
    ∀ p ∈ runs.foldl (processRun client) wfs, ZeroWf p.2 := by
  induction runs generalizing wfs with
  | nil => simpa using hz
  | cons r rest ih =>
    intro p hp
    simp only [List.foldl_cons] at hp
    exact ih (fun r' hr' => hfail r' (List.mem_cons_of_mem _ hr')) _
      (processRun_zero client r wfs (hfail r (List.mem_cons_self _ _)).1
        (hfail r (List.mem_cons_self _ _)).2 hz) p hp

lemma lookup_updateAssoc_self {α : Type} (k : String) (f : Option α → α)
    (l : List (String × α)) : (lookupAssoc k (updateAssoc k f l)).isSome := by
  induction l with
  | nil => simp [updateAssoc, lookupAssoc]
  | cons p rest ih =>
    obtain ⟨k', v⟩ := p
    by_cases h : k' = k
    · simp [updateAssoc, lookupAssoc, h]
    · simp only [updateAssoc, if_neg h, lookupAssoc]
      exact ih

lemma lookup_updateAssoc_preserve {α : Type} (k k2 : String) (f : Option α → α)
    (l : List (String × α)) (h : (lookupAssoc k l).isSome) :
    (lookupAssoc k (updateAssoc k2 f l)).isSome := by
  induction l with
  | nil => simp [lookupAssoc] at h
  | cons p rest ih =>
    obtain ⟨k', v⟩ := p
    by_cases h1 : k' = k2
    · simp only [updateAssoc, if_pos h1, lookupAssoc]
      simp only [lookupAssoc] at h
      by_cases h2 : k' = k
      · rw [if_pos h2]
        rfl
      · rw [if_neg h2]
        rw [if_neg h2] at h
        exact h
    · simp only [updateAssoc, if_neg h1, lookupAssoc]
      simp only [lookupAssoc] at h
      by_cases h2 : k' = k
      · rw [if_pos h2]
        rfl
      · rw [if_neg h2]
        rw [if_neg h2] at h
        exact ih h

lemma foldl_processRun_preserve (client : Client) (runs : List RunRec)
    (wfs : List (String × WorkflowAgg)) (k : String)
    (h : (lookupAssoc k wfs).isSome) :
    (lookupAssoc k (runs.foldl (processRun client) wfs)).isSome := by
  induction runs generalizing wfs with
  | nil => simpa using h
  | cons r rest ih =>
    simp only [List.foldl_cons]
    exact ih _ (lookup_updateAssoc_preserve k r.name _ wfs h)

lemma foldl_processRun_presence (client : Client) (runs : List RunRec)
    (wfs : List (String × WorkflowAgg)) :
    ∀ r ∈ runs, (lookupAssoc r.name (runs.foldl (processRun client) wfs)).isSome := by
  induction runs generalizing wfs with
  | nil => simp
  | cons r0 rest ih =>
    intro r hr
    simp only [List.foldl_cons]
    rcases List.mem_cons.mp hr with h | h
    · subst h
      exact foldl_processRun_preserve client rest _ r.name
        (lookup_updateAssoc_self r.name _ wfs)
    · exact ih _ r h

lemma lookupAssoc_mem {α : Type} (k : String) (l : List (String × α)) (v : α)
    (h : lookupAssoc k l = some v) : (k, v) ∈ l := by
  induction l with
  | nil => simp [lookupAssoc] at h
  | cons p rest ih =>
    obtain ⟨k', v'⟩ := p
    simp only [lookupAssoc] at h
    by_cases h1 : k' = k
    · rw [if_pos h1] at h
      obtain rfl := Option.some.injEq .. ▸ h
      subst h1
      exact List.mem_cons_self _ _
    · rw [if_neg h1] at h
      exact List.mem_cons_of_mem _ (ih h)

lemma foldl_cost_of_zero (wfs : List (String × WorkflowAgg))
    (hz : ∀ p ∈ wfs, p.2.cost = 0) (q : ℚ) :
    wfs.foldl (fun acc p => acc + p.2.cost) q = q := by
  induction wfs generalizing q with
  | nil => rfl
  | cons p rest ih =>
    simp only [List.foldl_cons]
    rw [hz p (List.mem_cons_self _ _), add_zero]
    exact ih (fun p hp => hz p (List.mem_cons_of_mem _ hp)) q

/-- C2: when the timing and job fetches fail for every run, `analyze`
still returns normally: every run is counted, the total cost is zero,
and each run's workflow entry is present with zero cost, zero minutes
and no jobs. -/
theorem analyze_per_run_failure (client : Client) (repo : String) (limit : Nat)
    (hfail : ∀ r ∈ client.runs repo limit,
      exceptFailed (client.timing r.id) = true ∧
      exceptFailed (client.jobs r.id) = true) :
    (analyze client repo limit).total_runs = (client.runs repo limit).length ∧
    (analyze client repo limit).total_cost = 0 ∧
    ∀ r ∈ client.runs repo limit,
      ∃ wf, lookupAssoc r.name (analyze client repo limit).workflows = some wf ∧
        wf.cost = 0 ∧ wf.minutes = 0 ∧ wf.jobs = [] := by
  have hwfs := foldl_processRun_zero client (client.runs repo limit) hfail [] (by simp)
  refine ⟨rfl, ?_, ?_⟩
  · exact foldl_cost_of_zero _ (fun p hp => (hwfs p hp).1) 0
  · intro r hr
    have hs := foldl_processRun_presence client (client.runs repo limit) [] r hr
    obtain ⟨wf, hwf⟩ := Option.isSome_iff_exists.mp hs
    exact ⟨wf, hwf, hwfs (r.name, wf) (lookupAssoc_mem _ _ _ hwf)⟩

/-- The test suite's failing client: one run, every timing and job fetch
reports an error. -/
def failClient : Client :=
  ⟨fun _ _ => [⟨1, "CI"⟩], fun _ => .error "rate limited", fun _ => .error "rate limited"⟩

/-- C2 witness: the single-run client whose fetches all fail yields one
counted run, zero total cost, and a zero workflow entry. -/
theorem analyze_per_run_failure_witness :
    (analyze failClient "org/repo" 5).total_runs = 1 ∧
    (analyze failClient "org/repo" 5).total_cost = 0 ∧
    ∃ wf, lookupAssoc "CI" (analyze failClient "org/repo" 5).workflows = some wf ∧
      wf.cost = 0 ∧ wf.minutes = 0 ∧ wf.jobs = [] := by
  obtain ⟨h1, h2, h3⟩ := analyze_per_run_failure failClient "org/repo" 5 (by
    intro r hr
    rcases List.mem_singleton.mp hr with rfl
    exact ⟨rfl, rfl⟩)
  exact ⟨h1, h2, h3 ⟨1, "CI"⟩ (List.mem_singleton.mpr rfl)⟩

/-- C10 counterexample: a 9-character token whose middle character is
already an asterisk is returned unchanged, so `mask_token` can return
the full token even when more than 8 characters are present. -/
theorem mask_token_counterexample :
    ("aaaa*aaaa" : String).length > 8 ∧ mask_token "aaaa*aaaa" = "aaaa*aaaa" := by
  decide

/-- C10 (amended): for a token longer than 8 characters, `mask_token`
returns a string of the same length whose first 4 and last 4 characters
are the token's and whose middle characters are all asterisks — hence it
differs from the token whenever some middle character is not an
asterisk — and otherwise it returns the constant "****". -/
theorem mask_token_spec (t : String) :
    (t.length > 8 →
      (mask_token t).length = t.length ∧
      (mask_token t).data.take 4 = t.data.take 4 ∧
      (mask_token t).data.drop (t.length - 4) = t.data.drop (t.length - 4) ∧
      ((mask_token t).data.drop 4).take (t.length - 8) =
        List.replicate (t.length - 8) '*' ∧
      ((∃ c ∈ (t.data.drop 4).take (t.length - 8), c ≠ '*') → mask_token t ≠ t)) ∧
    (t.length ≤ 8 → mask_token t = "****") := by
  constructor
  · intro h
    have hn : t.data.length = t.length := rfl
    have hA : (t.data.take 4).length = 4 := by
      rw [List.length_take]
      omega
    have hB : (List.replicate (t.length - 8) '*').length = t.length - 8 :=
      List.length_replicate _ _
    have hAB : (t.data.take 4 ++ List.replicate (t.length - 8) '*').length =
        t.length - 4 := by
      rw [List.length_append, hA, hB]
      omega
    have hmask : (mask_token t).data =
        t.data.take 4 ++ List.replicate (t.length - 8) '*' ++
          t.data.drop (t.length - 4) := by
      rw [mask_token, if_pos h]
    have hmid : ((mask_token t).data.drop 4).take (t.length - 8) =
        List.replicate (t.length - 8) '*' := by
      rw [hmask, List.append_assoc, List.drop_left' hA, List.take_left' hB]
    refine ⟨?_, ?_, ?_, hmid, ?_⟩
    · show (mask_token t).data.length = t.length
      rw [hmask]
      simp only [List.length_append, hA, hB, List.length_drop, hn]
      omega
    · rw [hmask, List.append_assoc, List.take_left' hA]
    · rw [hmask, List.drop_left' hAB]
    · rintro ⟨c, hc, hne⟩ heq
      have hcm : c ∈ List.replicate (t.length - 8) '*' := by
        rw [← hmid, heq]
        exact hc
      exact hne (List.eq_of_mem_replicate hcm)
  · intro h
    rw [mask_token, if_neg (by omega)]

/-- C10 witness: a 16-character secret is masked to a different string,
and a short token collapses to the constant mask. -/
theorem mask_token_spec_witness :
    mask_token "ghp_secret_value" ≠ "ghp_secret_value" ∧
    mask_token "short" = "****" :=
  ⟨((mask_token_spec "ghp_secret_value").1 (by decide)).2.2.2.2
      ⟨'s', by decide, by decide⟩,
    (mask_token_spec "short").2 (by decide)⟩
